import Mathlib

/-!
Verification development for the move-search engine of the ultimate-chess-2024
repository (src/transposition_table.rs, src/evaluation.rs, src/uchess.rs,
src/computer_player.rs).

Modelling conventions:
* Rust u64 bitboards are Nat values below 2 ^ 64; shifts that can overflow are
  reduced modulo 2 ^ 64 exactly where the machine width truncates.
* Rust f32 scores are modelled as exact rationals.  The only score arithmetic
  the search performs is negation, comparison and the final multiply-by-10000
  conversion, all of which are order-exact; the f32 MAX / MIN sentinels are
  the exact rational values of those floats.
* The external chess-rules crate (board status, move generation, null moves,
  checkers) is not part of this repository; it is abstracted as explicit
  function parameters (the Game and ChessApi structures below), and theorems
  that depend on its behaviour take the corresponding assumptions as
  hypotheses.
* Mutable state (the transposition table) is passed explicitly; a HashMap is
  a function from 64-bit hashes to optional entries.
* Fallible operations (Rust unwrap / panic) return Option, none meaning panic.
-/

/-- Piece colours, as in the chess crate (White = index 0, Black = index 1). -/
inductive Color where
  | white
  | black
deriving DecidableEq, Fintype

/-- Piece kinds in the chess crate's index order: Pawn 0, Knight 1, Bishop 2,
Rook 3, Queen 4, King 5. -/
inductive Piece where
  | pawn
  | knight
  | bishop
  | rook
  | queen
  | king
deriving DecidableEq, Fintype

/-- The list chess::ALL_PIECES, in index order. -/
def ALL_PIECES : List Piece :=
  [Piece.pawn, Piece.knight, Piece.bishop, Piece.rook, Piece.queen, Piece.king]

/-- The list chess::ALL_COLORS. -/
def ALL_COLORS : List Color := [Color.white, Color.black]

/-- The opposite colour. -/
def swapColor : Color → Color
  | Color.white => Color.black
  | Color.black => Color.white

/-- Index of a piece kind, chess::Piece::to_index. -/
def pieceIdx : Piece → Fin 6
  | Piece.pawn => 0
  | Piece.knight => 1
  | Piece.bishop => 2
  | Piece.rook => 3
  | Piece.queen => 4
  | Piece.king => 5

/-- The exact rational value of Rust's f32::MAX, (2 ^ 24 - 1) * 2 ^ 104,
written as a literal so that it evaluates by kernel reduction. -/
def f32MaxQ : ℚ := 340282346638528859811704183484516925440

/-- The exact rational value of Rust's f32::MIN, which is -f32::MAX. -/
def f32MinQ : ℚ := -f32MaxQ

/-- SearchFlag from transposition_table.rs (Exact / Lowerbound / UpperBound). -/
inductive SearchFlag where
  | Exact
  | Lowerbound
  | UpperBound
deriving DecidableEq

/-- SearchResult from transposition_table.rs: depth i32, score f32, flag,
age u16, best_move Option, with the move type abstract. -/
structure SearchResult (μ : Type) where
  depth : Int
  score : ℚ
  flag : SearchFlag
  age : Nat
  bestMove : Option μ
deriving DecidableEq

/-- TranspositionTable: the HashMap from 64-bit board hashes to entries,
modelled extensionally as a function. -/
def TT (μ : Type) : Type := Nat → Option (SearchResult μ)

/-- The empty transposition table (TranspositionTable::default). -/
def TT.empty {μ : Type} : TT μ := fun _ => none

/-- TranspositionTable::add: reads the existing entry's depth (0 when there
is no entry), and inserts the new result only when that depth is strictly
below the new depth and the new score is neither f32::MAX nor f32::MIN. -/
def TT.add {β μ : Type} (hash : β → Nat) (t : TT μ) (b : β) (r : SearchResult μ) : TT μ :=
  let existingDepth : Int :=
    match t (hash b) with
    | some e => e.depth
    | none => 0
  if existingDepth < r.depth ∧ r.score ≠ f32MaxQ ∧ r.score ≠ f32MinQ then
    fun k => if k = hash b then some r else t k
  else
    t

/-- TranspositionTable::get: returns the entry stored for the board's hash
only when its recorded depth is at least the requested depth. -/
def TT.get {β μ : Type} (hash : β → Nat) (t : TT μ) (b : β) (depth : Int) :
    Option (SearchResult μ) :=
  match t (hash b) with
  | some r => if r.depth ≥ depth then some r else none
  | none => none

/-- TranspositionTable::size. -/
def TT.sizeOn {μ : Type} (t : TT μ) (keys : List Nat) : Nat :=
  (keys.filter fun k => (t k).isSome).length

/-- TranspositionTable::legal_moves given the move list produced by the rules
engine: if the stored entry has a best move contained in the list, every
occurrence of it is removed and it is placed at the front. -/
def TT.orderedMoves {β μ : Type} [DecidableEq μ] (hash : β → Nat) (t : TT μ) (b : β)
    (ms : List μ) : List μ :=
  match t (hash b) with
  | some e =>
    match e.bestMove with
    | some bm => if ms.contains bm then bm :: ms.filter (fun m => m ≠ bm) else ms
    | none => ms
  | none => ms

/-- TranspositionTable::trim with the build-dependent HALF_MOVE_CUTOFF (10 on
native builds, 1 on wasm) as a parameter: a no-op when the half-move count is
at most the cutoff, otherwise removes every entry whose age is at most
|half_move_count - cutoff|. -/
def TT.trim {μ : Type} (cutoff : Int) (t : TT μ) (halfMoveCount : Nat) : TT μ :=
  if (halfMoveCount : Int) ≤ cutoff then t
  else fun k =>
    match t k with
    | some e => if (e.age : Int) ≤ |(halfMoveCount : Int) - cutoff| then none else some e
    | none => none

/-- Left shift truncated to 64 bits, the behaviour of << on Rust u64. -/
def shl64 (a k : Nat) : Nat := (a <<< k) % 2 ^ 64

/-- Bitwise complement within 64 bits, the behaviour of ! on a u64 bitboard. -/
def compl64 (a : Nat) : Nat := a ^^^ (2 ^ 64 - 1)

/-- Population count restricted to the 64 board bits, BitBoard::popcnt. -/
def popcnt64 (a : Nat) : Nat :=
  (Finset.univ.filter fun i : Fin 64 => a.testBit i.val).card

/-- north_fill from evaluation.rs. -/
def northFill (bb : Nat) : Nat :=
  let g1 := bb ||| shl64 bb 8
  let g2 := g1 ||| shl64 g1 16
  g2 ||| shl64 g2 32

/-- south_fill from evaluation.rs. -/
def southFill (bb : Nat) : Nat :=
  let g1 := bb ||| bb >>> 8
  let g2 := g1 ||| g1 >>> 16
  g2 ||| g2 >>> 32

/-- file_fill from evaluation.rs. -/
def fileFill (bb : Nat) : Nat := northFill bb ||| southFill bb

/-- north_one from evaluation.rs. -/
def northOne (bb : Nat) : Nat := shl64 bb 8

/-- south_one from evaluation.rs. -/
def southOne (bb : Nat) : Nat := bb >>> 8

/-- front_spans from evaluation.rs. -/
def frontSpans (pawns : Nat) : Color → Nat
  | Color.white => northOne (northFill pawns)
  | Color.black => southOne (southFill pawns)

/-- rear_spans from evaluation.rs. -/
def rearSpans (pawns : Nat) : Color → Nat
  | Color.white => southOne (southFill pawns)
  | Color.black => northOne (northFill pawns)

/-- pawns_in_front_own from evaluation.rs. -/
def pawnsInFrontOwn (pawns : Nat) (c : Color) : Nat := pawns &&& frontSpans pawns c

/-- doubled_pawns from evaluation.rs. -/
def doubledPawns (pawns : Nat) (c : Color) : Nat := pawnsInFrontOwn pawns c

/-- NOT_A_FILE from evaluation.rs. -/
def NOT_A_FILE : Nat := 0xfefefefefefefefe

/-- NOT_H_FILE from evaluation.rs. -/
def NOT_H_FILE : Nat := 0x7f7f7f7f7f7f7f7f

/-- east_one from evaluation.rs. -/
def eastOne (bb : Nat) : Nat := shl64 bb 1 &&& NOT_A_FILE

/-- west_one from evaluation.rs. -/
def westOne (bb : Nat) : Nat := bb >>> 1 &&& NOT_H_FILE

/-- east_attack_file_fill from evaluation.rs. -/
def eastAttackFileFill (pawns : Nat) : Nat := eastOne (fileFill pawns)

/-- west_attack_file_fill from evaluation.rs. -/
def westAttackFileFill (pawns : Nat) : Nat := westOne (fileFill pawns)

/-- no_neighbor_on_east_file from evaluation.rs. -/
def noNeighborOnEastFile (pawns : Nat) : Nat := pawns &&& compl64 (westAttackFileFill pawns)

/-- no_neighbor_on_west_file from evaluation.rs. -/
def noNeighborOnWestFile (pawns : Nat) : Nat := pawns &&& compl64 (eastAttackFileFill pawns)

/-- isolated_pawns from evaluation.rs. -/
def isolatedPawns (pawns : Nat) : Nat :=
  noNeighborOnEastFile pawns &&& noNeighborOnWestFile pawns

/-- The chess crate's Board as the evaluator and the hash consume it: one
bitboard per piece kind (Board::pieces), one combined bitboard per colour
(Board::color_combined), and the side to move. -/
structure ChessBoard where
  pieces : Piece → Nat
  colors : Color → Nat
  sideToMove : Color

/-- Board::piece_on for a square index: the piece kind whose bitboard has the
square's bit set (colour is not part of the answer). -/
def pieceOn (b : ChessBoard) (sq : Fin 64) : Option Piece :=
  ALL_PIECES.find? fun p => (b.pieces p).testBit sq.val

/-- ZOBRIST_TABLE_BLACK_TO_MOVE from uchess.rs. -/
def ZOBRIST_TABLE_BLACK_TO_MOVE : Nat := 12738094573457687482

/-- hash_board from uchess.rs, with the lazily-initialised random
ZOBRIST_TABLE passed explicitly: XOR of the black-to-move constant (when
Black is to move) with one table value per occupied (square, piece) pair. -/
def hashBoard (z : Fin 64 → Fin 6 → Nat) (b : ChessBoard) : Nat :=
  (List.finRange 64).foldl
    (fun h sq =>
      match pieceOn b sq with
      | some p => h ^^^ z sq (pieceIdx p)
      | none => h)
    (if b.sideToMove = Color.black then ZOBRIST_TABLE_BLACK_TO_MOVE else 0)

/-- GamePhase from evaluation.rs. -/
inductive GamePhase where
  | opening
  | middleGame
  | endGame
deriving DecidableEq

/-- GamePhase::new from evaluation.rs. -/
def gamePhase (b : ChessBoard) : GamePhase :=
  let minorPieces := popcnt64 (b.pieces Piece.bishop ||| b.pieces Piece.knight)
  let majorPieces := popcnt64 (b.pieces Piece.rook ||| b.pieces Piece.queen)
  let pawns := popcnt64 (b.pieces Piece.pawn)
  if pawns > 14 ∧ minorPieces = 4 ∧ majorPieces ≥ 4 then GamePhase.opening
  else if pawns ≤ 14 ∧ minorPieces ≤ 4 ∧ majorPieces ≤ 4 then GamePhase.endGame
  else GamePhase.middleGame

/-- The per-colour sign factor used throughout the evaluator (White 1,
Black -1). -/
def colorSign : Color → ℚ
  | Color.white => 1
  | Color.black => -1

/-- The contribution of one (colour, piece) pair inside eval_material: pawns
split into normal / doubled / isolated counts (checked_sub saturating at 0,
exactly Nat subtraction), other pieces weight times count. -/
def pieceMaterial (w : Piece → ℚ) (b : ChessBoard) (c : Color) (p : Piece) : ℚ :=
  let bb := b.pieces p &&& b.colors c
  if p = Piece.pawn then
    let doubledCount := popcnt64 (doubledPawns bb c)
    let isolatedCount := popcnt64 (isolatedPawns bb)
    let normalCount := popcnt64 bb - (doubledCount + isolatedCount)
    (normalCount : ℚ) * 1 + (doubledCount : ℚ) * (1 / 2) + (isolatedCount : ℚ) * (1 / 2)
  else
    w p * (popcnt64 bb : ℚ)

/-- eval_material from evaluation.rs: signed sum of the per-piece material
terms over both colours. -/
def evalMaterial (b : ChessBoard) (w : Piece → ℚ) : ℚ :=
  (ALL_COLORS.map fun c =>
    (ALL_PIECES.map fun p => pieceMaterial w b c p * colorSign c).sum).sum

/-- Piece-square tables (PieceSquareTables from computer_player.rs), one
64-entry table per piece kind. -/
structure PieceSquareTables where
  pawn : Fin 64 → ℚ
  knight : Fin 64 → ℚ
  bishop : Fin 64 → ℚ
  rook : Fin 64 → ℚ
  queen : Fin 64 → ℚ
  king : Fin 64 → ℚ

/-- PieceSquareTables::get_square_table. -/
def PieceSquareTables.getSquareTable (t : PieceSquareTables) : Piece → Fin 64 → ℚ
  | Piece.pawn => t.pawn
  | Piece.knight => t.knight
  | Piece.bishop => t.bishop
  | Piece.rook => t.rook
  | Piece.queen => t.queen
  | Piece.king => t.king

/-- PieceSquarePhases from computer_player.rs. -/
structure PieceSquarePhases where
  opening : PieceSquareTables
  middleGame : PieceSquareTables
  endGame : PieceSquareTables

/-- PieceSquarePhases::get_square_table. -/
def PieceSquarePhases.getSquareTable (t : PieceSquarePhases) (phase : GamePhase) :
    Piece → Fin 64 → ℚ :=
  match phase with
  | GamePhase.opening => t.opening.getSquareTable
  | GamePhase.middleGame => t.middleGame.getSquareTable
  | GamePhase.endGame => t.endGame.getSquareTable

/-- Mirror a square index for Black's table lookup (index = 63 - index). -/
def mirrorSq (i : Fin 64) : Fin 64 := ⟨63 - i.val, by omega⟩

/-- evaluate_piece_square_location from evaluation.rs: for every piece of
every colour, its table value at its square (index flipped for Black),
divided by 24, signed by colour. -/
def evaluatePieceSquareLocation (phases : PieceSquarePhases) (b : ChessBoard)
    (phase : GamePhase) : ℚ :=
  (ALL_COLORS.map fun c =>
    (ALL_PIECES.map fun p =>
      let bb := b.pieces p &&& b.colors c
      let tbl := phases.getSquareTable phase p
      ∑ i : Fin 64,
        if bb.testBit i.val then
          (tbl (if c = Color.black then mirrorSq i else i) / 24) * colorSign c
        else 0).sum).sum

/-- The part of the chess crate's Board interface that eval consumes but that
is not implemented in this repository: legal-move counting, null moves and
the checkers bitboard. -/
structure ChessApi where
  legalMoveCount : ChessBoard → Nat
  nullMove : ChessBoard → Option ChessBoard
  checkers : ChessBoard → Nat

/-- The mobility loop of eval: for each colour in the side-to-move-first
order, add the signed legal-move count of the current board, then step to the
null-move board or stop. -/
def mobilityLoop (api : ChessApi) : List Color → ChessBoard → ℚ
  | [], _ => 0
  | c :: rest, bd =>
    let mobility : ℚ := api.legalMoveCount bd
    colorSign c * mobility +
      match api.nullMove bd with
      | some nb => mobilityLoop api rest nb
      | none => 0

/-- The mobility term of eval (colour order depends on the side to move). -/
def mobilityScore (api : ChessApi) (b : ChessBoard) : ℚ :=
  let colors :=
    if b.sideToMove = Color.white then [Color.white, Color.black]
    else [Color.black, Color.white]
  mobilityLoop api colors b

/-- The check-bonus term of eval: bonus per white checking piece minus bonus
per black checking piece. -/
def checkersScore (api : ChessApi) (b : ChessBoard) (checkBonus : ℚ) : ℚ :=
  let checkersBB := api.checkers b
  (popcnt64 (checkersBB &&& b.colors Color.white) : ℚ) * checkBonus -
    (popcnt64 (checkersBB &&& b.colors Color.black) : ℚ) * checkBonus

/-- The fields of EvaluationPresets that eval reads. -/
structure EvalPreset where
  pieceWeights : Piece → ℚ
  phases : PieceSquarePhases
  checkBonus : ℚ

/-- eval from evaluation.rs: material + mobility + checkers + position. -/
def eval (api : ChessApi) (preset : EvalPreset) (b : ChessBoard) : ℚ :=
  let materialScore := evalMaterial b preset.pieceWeights
  let positionScore := evaluatePieceSquareLocation preset.phases b (gamePhase b)
  let mobility := mobilityScore api b
  let checkers := checkersScore api b preset.checkBonus
  materialScore + mobility + checkers + positionScore

/-- The chess-rules interface the recursive search consumes, abstracted over
the board type β and the move type μ (the crate's Board and ChessMove):
legal-move generation, move application, destination-occupancy (the
quiescence capture filter board.piece_on(mov.get_dest()) != None), total
piece count, status queries, side to move, the static evaluation eval
(already specialised to the presets in use) and hash_board. -/
structure Game (β μ : Type) where
  legalMoves : β → List μ
  makeMove : β → μ → β
  destOccupied : β → μ → Bool
  pieceCount : β → Nat
  isCheckmate : β → Bool
  isStalemate : β → Bool
  sideToMove : β → Color
  evalScore : β → ℚ
  hash : β → Nat

/-- The who_to_move multiplier of quiesce and blunder_score. -/
def whoMul : Color → ℚ
  | Color.white => 1
  | Color.black => -1

/-- The move loop of quiesce, with the recursive evaluator passed in: for
each capturing move, negate the recursive score, return beta on score >=
beta, otherwise raise alpha on improvement.  A none result propagates
exhausted fuel. -/
def quiesceLoop {β μ : Type} (qf : β → ℚ → ℚ → Option ℚ) (g : Game β μ) (b : β)
    (beta : ℚ) : List μ → ℚ → Option ℚ
  | [], alpha => some alpha
  | m :: rest, alpha =>
    match qf (g.makeMove b m) (-beta) (-alpha) with
    | none => none
    | some v =>
      let score := -v
      if score ≥ beta then some beta
      else if score > alpha then quiesceLoop qf g b beta rest score
      else quiesceLoop qf g b beta rest alpha

/-- quiesce from evaluation.rs, with an explicit recursion budget (fuel):
checkmate returns f32::MIN, stalemate 0; otherwise stand-pat cutoff against
beta, raise alpha to the stand-pat score, and recurse only into moves whose
destination square is occupied.  none means the budget was exhausted; the
termination theorem shows any budget above the board's piece count is enough. -/
def quiesceFuel {β μ : Type} (g : Game β μ) (fuel : Nat) (b : β) (alpha beta : ℚ) :
    Option ℚ :=
  match fuel with
  | 0 => none
  | f + 1 =>
    if g.isCheckmate b then some f32MinQ
    else if g.isStalemate b then some 0
    else
      let standPat := g.evalScore b * whoMul (g.sideToMove b)
      if standPat ≥ beta then some beta
      else
        let alpha1 := if alpha < standPat then standPat else alpha
        quiesceLoop (fun b2 a2 beta2 => quiesceFuel g f b2 a2 beta2) g b beta
          ((g.legalMoves b).filter fun m => g.destOccupied b m) alpha1

/-- The total quiescence search: runs quiesceFuel with the budget pieceCount
+ 1, which the termination theorem proves sufficient whenever captures
strictly reduce the piece count. -/
def quiesce {β μ : Type} (g : Game β μ) (b : β) (alpha beta : ℚ) : ℚ :=
  (quiesceFuel g (g.pieceCount b + 1) b alpha beta).getD 0

/-- The hypothesis on the rules engine that makes quiescence well-founded:
applying a legal move onto an occupied destination square strictly reduces
the number of pieces on the board. -/
def CapturesShrink {β μ : Type} (g : Game β μ) : Prop :=
  ∀ b m, m ∈ g.legalMoves b → g.destOccupied b m = true →
    g.pieceCount (g.makeMove b m) < g.pieceCount b

/-- The transposition probe at the top of nega_max_alpha_beta_internal:
some score means the stored entry short-circuits the node (Exact always;
UpperBound when its score ≤ alpha; Lowerbound when its score ≥ beta). -/
def ttProbe {β μ : Type} (hash : β → Nat) (t : TT μ) (b : β) (depth : Int)
    (alpha beta : ℚ) : Option ℚ :=
  match TT.get hash t b depth with
  | some r =>
    match r.flag with
    | SearchFlag.Exact => some r.score
    | SearchFlag.UpperBound => if r.score ≤ alpha then some r.score else none
    | SearchFlag.Lowerbound => if r.score ≥ beta then some r.score else none
  | none => none

/-- The move loop of nega_max_alpha_beta_internal, with the depth-(d-1)
recursive evaluator passed in.  State: the threaded table, alpha, the best
move so far and the is_exact flag.  After the loop the node's entry is added
with flag Exact when is_exact survived, else Lowerbound; a score above beta
adds an UpperBound entry and returns beta; the stop flag aborts with 0. -/
def negaLoop {β μ : Type} (rec : TT μ → β → ℚ → ℚ → ℚ × TT μ) (g : Game β μ)
    (stop : Bool) (storeDepth hm : Nat) (b : β) (beta : ℚ) :
    List μ → TT μ → ℚ → Option μ → Bool → ℚ × TT μ
  | [], t, alpha, bm, isExact =>
    (alpha, TT.add g.hash t b
      ⟨(storeDepth : Int), alpha,
        if isExact then SearchFlag.Exact else SearchFlag.Lowerbound, hm, bm⟩)
  | m :: rest, t, alpha, bm, isExact =>
    let r := rec t (g.makeMove b m) (-beta) (-alpha)
    let score := -r.1
    if stop then (0, r.2)
    else if score > beta then
      (beta, TT.add g.hash r.2 b
        ⟨(storeDepth : Int), score, SearchFlag.UpperBound, hm, some m⟩)
    else if score > alpha then negaLoop rec g stop storeDepth hm b beta rest r.2 score (some m) isExact
    else negaLoop rec g stop storeDepth hm b beta rest r.2 alpha bm false

/-- nega_max_alpha_beta_internal from evaluation.rs, with the shared table
threaded explicitly and the stop flag a fixed boolean: check the stop flag,
probe the transposition table, delegate depth 0 to quiescence, otherwise run
the move loop over the table-ordered legal moves. -/
def negaInternal {β μ : Type} [DecidableEq μ] (g : Game β μ) (stop : Bool) :
    Nat → TT μ → β → Nat → ℚ → ℚ → ℚ × TT μ
  | 0, t, b, _, alpha, beta =>
    if stop then (0, t)
    else
      match ttProbe g.hash t b 0 alpha beta with
      | some s => (s, t)
      | none => (quiesce g b alpha beta, t)
  | d + 1, t, b, hm, alpha, beta =>
    if stop then (0, t)
    else
      match ttProbe g.hash t b ((d : Int) + 1) alpha beta with
      | some s => (s, t)
      | none =>
        negaLoop (fun t1 b1 a1 beta1 => negaInternal g stop d t1 b1 (hm + 1) a1 beta1)
          g stop (d + 1) hm b beta
          (TT.orderedMoves g.hash t b (g.legalMoves b)) t alpha none true

/-- Rounding of f32::round followed by the saturating cast as i64: round half
away from zero, clamped to the i64 range. -/
def roundI64 (q : ℚ) : Int :=
  let r := if q ≥ 0 then ⌊q + 1 / 2⌋ else ⌈q - 1 / 2⌉
  max (min r (2 ^ 63 - 1)) (-(2 ^ 63))

/-- nega_max_alpha_beta from evaluation.rs: run the internal search with the
full (f32::MIN, f32::MAX) window and convert the score to fixed-point by
multiplying by 10000 and rounding. -/
def negaMaxAlphaBeta {β μ : Type} [DecidableEq μ] (g : Game β μ) (stop : Bool)
    (t : TT μ) (b : β) (depth hm : Nat) : Int :=
  roundI64 ((negaInternal g stop depth t b hm f32MinQ f32MaxQ).1 * 10000)

/-- Observable outcome of one run of the negamax move loop (with the stop
flag clear): whether a beta cutoff fired (and on which move, with which
score), the final alpha / best move / is_exact flag, whether any move ever
strictly improved alpha, and the table as threaded through the recursive
calls just before the node's own entry is added. -/
structure LoopTrace (β μ : Type) where
  cut : Option (μ × ℚ)
  endAlpha : ℚ
  endBm : Option μ
  allImproved : Bool
  anyImproved : Bool
  endTable : TT μ

/-- Instrumented mirror of negaLoop (stop flag clear): records the loop's
outcome instead of performing the final table add. -/
def negaLoopTrace {β μ : Type} (rec : TT μ → β → ℚ → ℚ → ℚ × TT μ) (g : Game β μ)
    (b : β) (beta : ℚ) :
    List μ → TT μ → ℚ → Option μ → Bool → Bool → LoopTrace β μ
  | [], t, alpha, bm, isExact, anyImp => ⟨none, alpha, bm, isExact, anyImp, t⟩
  | m :: rest, t, alpha, bm, isExact, anyImp =>
    let r := rec t (g.makeMove b m) (-beta) (-alpha)
    let score := -r.1
    if score > beta then ⟨some (m, score), alpha, bm, isExact, anyImp, r.2⟩
    else if score > alpha then negaLoopTrace rec g b beta rest r.2 score (some m) isExact true
    else negaLoopTrace rec g b beta rest r.2 alpha bm false anyImp

/-- i64::MAX. -/
def i64Max : Int := 2 ^ 63 - 1

/-- js_sys::Number::MAX_SAFE_INTEGER as i64, 2 ^ 53 - 1. -/
def jsMaxSafeInteger : Int := 2 ^ 53 - 1

/-- The wasm build's clamp of a move score into the JavaScript safe-integer
range (score.min(MAX_SAFE_INTEGER).max(MIN_SAFE_INTEGER)). -/
def clampJs (s : Int) : Int := max (min s jsMaxSafeInteger) (-jsMaxSafeInteger)

/-- The score assigned to one root move by the per-depth worker of
delayed_turn_eval (threaded build, computer_player.rs lines 1093-1107): the
i64 maximum when the move's algebraic notation contains the checkmate marker,
otherwise the negated negamax value of the board after the move. -/
def rootMoveScore {β μ : Type} [DecidableEq μ] (g : Game β μ) (stop : Bool)
    (t : TT μ) (depth hm : Nat) (b : β) (san : String) (m : μ) : Int :=
  if san.contains '#' then i64Max
  else -(negaMaxAlphaBeta g stop t (g.makeMove b m) depth hm)

/-- The score stored for one root move by calculate_move_scores (wasm build,
computer_player.rs lines 836-859): as above but searched at depth + 1 and
half-move + 1 and clamped into the JavaScript safe-integer range before being
pushed. -/
def wasmRootMoveScore {β μ : Type} [DecidableEq μ] (g : Game β μ) (t : TT μ)
    (depth hm : Nat) (b : β) (san : String) (m : μ) : Int :=
  clampJs
    (if san.contains '#' then i64Max
     else -(negaMaxAlphaBeta g false t (g.makeMove b m) (depth + 1) (hm + 1)))

/-- MoveScore from computer_player.rs: notation, moved piece kind, score. -/
structure MoveScoreR where
  san : String
  piece : Piece
  score : Int
deriving DecidableEq

/-- Maximum of the keys of the per-depth score table
(move_scores.keys().max().unwrap(); 0 stands for the unreachable empty case). -/
def keysMaxD (l : List (Int × List MoveScoreR)) : Int :=
  match l.map Prod.fst with
  | [] => 0
  | x :: xs => xs.foldl max x

/-- Lookup of one depth's score list (move_scores.get(&depth)). -/
def lookupDepth (d : Int) (l : List (Int × List MoveScoreR)) :
    Option (List MoveScoreR) :=
  (l.find? fun p => p.1 = d).map Prod.snd

/-- Maximum of a list of scores (sorted-unique-scores.last().unwrap(); 0
stands for the unreachable empty case). -/
def intListMax (l : List Int) : Int :=
  match l with
  | [] => 0
  | x :: xs => xs.foldl max x

/-- The move-selection epilogue of delayed_turn_eval (computer_player.rs
lines 1177-1227), with the three random draws supplied as oracles: the
per-candidate hit-rate draw (hit), the index draws for choosing among the
best-scoring moves and for the uniform fallback.  The overall none models a
panic (an unwrap failing); some s is the selected notation.  An empty score
table, or a hit-rate filter that eliminates everything, falls back to a
uniformly random key of the input move map. -/
def delayedSelect (moves : List String) (moveScores : List (Int × List MoveScoreR))
    (randomDepth : Int) (hit : MoveScoreR → Bool) (pickBest pickFallback : Nat) :
    Option String :=
  let inner : Option (Option String) :=
    if moveScores.isEmpty then some none
    else
      let depth := min randomDepth (keysMaxD moveScores)
      match lookupDepth depth moveScores with
      | none => none
      | some lst =>
        let filtered := lst.filter hit
        if filtered.isEmpty then some none
        else
          let bestScore := intListMax (filtered.map fun ms => ms.score)
          let bestMoves := filtered.filter fun ms => ms.score = bestScore
          match bestMoves.get? (pickBest % bestMoves.length) with
          | some ms => some (some ms.san)
          | none => none
  match inner with
  | none => none
  | some (some s) => some s
  | some none => moves.get? (pickFallback % moves.length)

/-- The depth that TranspositionTable::add compares against: the stored
entry's depth, or 0 when the hash has no entry. -/
def TT.existingDepth {β μ : Type} (hash : β → Nat) (t : TT μ) (b : β) : Int :=
  match t (hash b) with
  | some e => e.depth
  | none => 0

/-- Board reflection at the bit level: y holds bit i exactly when x holds bit
63 - i (the 180-degree rotation matching the piece-square index flip
63 - index). -/
def Refl64 (x y : Nat) : Prop :=
  ∀ i : Fin 64, y.testBit i.val = x.testBit (63 - i.val)

/-- Well-formedness of a board's bitboards: genuine u64 values. -/
def BoardU64 (b : ChessBoard) : Prop := ∀ p, b.pieces p < 2 ^ 64

/-- Colour mirroring of positions, as in the spec's evaluation-symmetry
property: the side to move is swapped, each piece-kind bitboard is reflected,
and each colour's combined bitboard is the reflection of the other colour's. -/
def IsMirror (b b2 : ChessBoard) : Prop :=
  b2.sideToMove = swapColor b.sideToMove ∧
  (∀ p, Refl64 (b.pieces p) (b2.pieces p)) ∧
  (∀ c, Refl64 (b.colors c) (b2.colors (swapColor c)))

/-- Symmetric move generation, the spec's proviso for the mobility term: a
mirrored position has the same number of legal moves. -/
def CountMirrors (api : ChessApi) : Prop :=
  ∀ a a2, IsMirror a a2 → api.legalMoveCount a2 = api.legalMoveCount a

/-- Null moves commute with mirroring: on mirrored positions the null move
either fails on both or yields mirrored positions. -/
def NullMirrors (api : ChessApi) : Prop :=
  ∀ a a2, IsMirror a a2 →
    (api.nullMove a = none ∧ api.nullMove a2 = none) ∨
    (∃ na na2, api.nullMove a = some na ∧ api.nullMove a2 = some na2 ∧ IsMirror na na2)

/-- The checkers bitboard of a mirrored position is the reflected checkers
bitboard. -/
def CheckersMirror (api : ChessApi) : Prop :=
  ∀ a a2, IsMirror a a2 → Refl64 (api.checkers a) (api.checkers a2)

/-- A five-board game tree used to exercise the negamax move loop concretely:
the root 0 has the two moves 1 and 2 (a move is the index of the board it
leads to), the leaves evaluate to -5 and -3, nobody is mated or stalemated,
and hashing is the identity. -/
def gEx : Game Nat Nat where
  legalMoves := fun b => if b = 0 then [1, 2] else []
  makeMove := fun _ m => m
  destOccupied := fun _ _ => true
  pieceCount := fun _ => 0
  isCheckmate := fun _ => false
  isStalemate := fun _ => false
  sideToMove := fun _ => Color.white
  evalScore := fun b => if b = 1 then -5 else if b = 2 then -3 else 0
  hash := fun b => b

/-- A two-board game used to witness quiescence termination: board true holds
one capture onto board false, which is empty. -/
def gQ : Game Bool Bool where
  legalMoves := fun b => if b then [false] else []
  makeMove := fun _ m => m
  destOccupied := fun _ _ => true
  pieceCount := fun b => if b then 1 else 0
  isCheckmate := fun _ => false
  isStalemate := fun _ => false
  sideToMove := fun _ => Color.white
  evalScore := fun _ => 0
  hash := fun _ => 0

/-- C1 counterexample: with an empty table and a new result of depth 0 whose
score is not a sentinel, the claim predicts the result is stored (there is no
existing entry), but TranspositionTable::add treats a missing entry as depth
0, the test 0 < 0 fails, and the table stays empty. -/
theorem tt_add_cex :
    (TT.empty : TT Nat) ((fun k : Nat => k) 0) = none ∧
    (⟨0, 0, SearchFlag.Exact, 0, none⟩ : SearchResult Nat).score ≠ f32MaxQ ∧
    (⟨0, 0, SearchFlag.Exact, 0, none⟩ : SearchResult Nat).score ≠ f32MinQ ∧
    TT.add (fun k : Nat => k) TT.empty 0
      (⟨0, 0, SearchFlag.Exact, 0, none⟩ : SearchResult Nat) 0 = none := by
  refine ⟨rfl, ?_, ?_, ?_⟩ <;> decide

/-- C1 (amended): TranspositionTable::add stores the new result if and only
if the existing depth for the board's hash (0 when there is no entry) is
strictly less than the new result's depth and the new score is neither the
f32 maximum nor the f32 minimum sentinel; in every other case the table is
unchanged, and in particular adding a result whose depth is at most a stored
entry's depth is a no-op. -/
theorem tt_add_characterization {β μ : Type} (hash : β → Nat) (t : TT μ) (b : β)
    (r : SearchResult μ) :
    (TT.existingDepth hash t b < r.depth ∧ r.score ≠ f32MaxQ ∧ r.score ≠ f32MinQ →
      TT.add hash t b r = fun k => if k = hash b then some r else t k) ∧
    (¬(TT.existingDepth hash t b < r.depth ∧ r.score ≠ f32MaxQ ∧ r.score ≠ f32MinQ) →
      TT.add hash t b r = t) ∧
    (∀ e, t (hash b) = some e → r.depth ≤ e.depth → TT.add hash t b r = t) := by
  refine ⟨fun h => ?_, fun h => ?_, fun e he hd => ?_⟩
  · simp only [TT.add, TT.existingDepth] at h ⊢
    rw [if_pos h]
  · simp only [TT.add, TT.existingDepth] at h ⊢
    rw [if_neg h]
  · simp only [TT.add, TT.existingDepth]
    rw [if_neg]
    rintro ⟨h1, -⟩
    rw [he] at h1
    simp only [] at h1
    omega

/-- C1 witness: the amended characterisation applied to an empty table and a
depth-1 result, which is stored. -/
theorem tt_add_characterization_witness :
    TT.add (fun k : Nat => k) TT.empty 0
        (⟨1, 1, SearchFlag.Exact, 0, none⟩ : SearchResult Nat) =
      fun k => if k = 0 then some (⟨1, 1, SearchFlag.Exact, 0, none⟩ : SearchResult Nat)
        else TT.empty k :=
  (tt_add_characterization (fun k : Nat => k) TT.empty 0
    (⟨1, 1, SearchFlag.Exact, 0, none⟩ : SearchResult Nat)).1
    (by refine ⟨?_, ?_, ?_⟩ <;> decide)

/-- C2: TranspositionTable::get returns an entry only when it is the one
stored for the board's hash and its stored depth is at least the requested
depth; a missing entry or a stored depth below the request yields a miss. -/
theorem tt_get_depth_guarantee {β μ : Type} (hash : β → Nat) (t : TT μ) (b : β)
    (d : Int) :
    (∀ r, TT.get hash t b d = some r → t (hash b) = some r ∧ d ≤ r.depth) ∧
    (t (hash b) = none → TT.get hash t b d = none) ∧
    (∀ r, t (hash b) = some r → r.depth < d → TT.get hash t b d = none) := by
  cases he : t (hash b) with
  | none =>
    refine ⟨fun r hr => ?_, fun _ => ?_, fun r hr _ => ?_⟩
    · simp only [TT.get, he] at hr
      exact absurd hr (by simp)
    · simp only [TT.get, he]
    · simp at hr
  | some e =>
    refine ⟨fun r hr => ?_, fun h => ?_, fun r hr hd => ?_⟩
    · simp only [TT.get, he] at hr
      by_cases hdep : e.depth ≥ d
      · rw [if_pos hdep] at hr
        cases hr
        exact ⟨rfl, hdep⟩
      · rw [if_neg hdep] at hr
        exact absurd hr (by simp)
    · simp at h
    · cases hr
      simp only [TT.get, he]
      rw [if_neg (by omega)]

/-- C2 witness: a stored depth-1 entry requested at depth 2 is a miss. -/
theorem tt_get_depth_guarantee_witness :
    TT.get (fun k : Nat => k)
      (fun k => if k = 0 then some (⟨1, 0, SearchFlag.Exact, 0, none⟩ : SearchResult Nat)
        else none)
      (0 : Nat) 2 = none :=
  (tt_get_depth_guarantee (fun k : Nat => k)
      (fun k => if k = 0 then some (⟨1, 0, SearchFlag.Exact, 0, none⟩ : SearchResult Nat)
        else none) 0 2).2.2
    ⟨1, 0, SearchFlag.Exact, 0, none⟩ rfl (by decide)

/-- C7 counterexample: with the native cutoff 10 and reference half-move
count 20, the entry of age 10 satisfies |age - 20| <= 10, so the claim says
it survives, yet trim removes it (age <= |20 - 10|); and the entry of age 32
violates |age - 20| <= 10, so the claim says it is removed, yet trim keeps
it. -/
theorem tt_trim_cex :
    TT.trim 10
        (fun k : Nat =>
          if k = 0 then some (⟨1, 0, SearchFlag.Exact, 10, none⟩ : SearchResult Nat)
          else if k = 1 then some ⟨1, 0, SearchFlag.Exact, 32, none⟩ else none)
        20 0 = none ∧
    TT.trim 10
        (fun k : Nat =>
          if k = 0 then some (⟨1, 0, SearchFlag.Exact, 10, none⟩ : SearchResult Nat)
          else if k = 1 then some ⟨1, 0, SearchFlag.Exact, 32, none⟩ else none)
        20 1 = some (⟨1, 0, SearchFlag.Exact, 32, none⟩ : SearchResult Nat) ∧
    |(10 : Int) - 20| ≤ 10 ∧ ¬(|(32 : Int) - 20| ≤ 10) := by
  refine ⟨?_, ?_, ?_, ?_⟩ <;> decide

/-- C7 (amended): trim is a no-op when the half-move count is at most the
build's cutoff; otherwise it removes exactly the entries whose age is at most
half_move_count - cutoff, i.e. an entry survives if and only if its age
strictly exceeds half_move_count - cutoff (entries with ages far above the
reference are never removed). -/
theorem tt_trim_characterization {μ : Type} (cutoff : Int) (t : TT μ) (hmc : Nat) :
    ((hmc : Int) ≤ cutoff → TT.trim cutoff t hmc = t) ∧
    (cutoff < (hmc : Int) → ∀ k,
      TT.trim cutoff t hmc k =
        match t k with
        | some e => if (e.age : Int) ≤ (hmc : Int) - cutoff then none else some e
        | none => none) ∧
    (cutoff < (hmc : Int) → ∀ k e,
      (TT.trim cutoff t hmc k = some e ↔
        t k = some e ∧ (hmc : Int) - cutoff < (e.age : Int))) := by
  refine ⟨fun h => ?_, fun h k => ?_, fun h k e => ?_⟩
  · simp only [TT.trim, if_pos h]
  · simp only [TT.trim, if_neg (by omega : ¬(hmc : Int) ≤ cutoff)]
    rw [abs_of_pos (by omega : (0 : Int) < (hmc : Int) - cutoff)]
  · simp only [TT.trim, if_neg (by omega : ¬(hmc : Int) ≤ cutoff)]
    rw [abs_of_pos (by omega : (0 : Int) < (hmc : Int) - cutoff)]
    cases he : t k with
    | none => simp
    | some e2 =>
      simp only []
      by_cases ha : (e2.age : Int) ≤ (hmc : Int) - cutoff
      · rw [if_pos ha]
        constructor
        · intro hcon
          exact absurd hcon (by simp)
        · rintro ⟨he2, hage⟩
          cases he2
          omega
      · rw [if_neg ha]
        constructor
        · intro he2
          cases he2
          exact ⟨rfl, by omega⟩
        · rintro ⟨he2, -⟩
          exact he2

/-- C7 witness: below the cutoff, trim changes nothing. -/
theorem tt_trim_characterization_witness :
    TT.trim 10 (fun _ : Nat => (none : Option (SearchResult Nat))) 5 =
      (fun _ : Nat => (none : Option (SearchResult Nat))) :=
  (tt_trim_characterization 10 (fun _ : Nat => (none : Option (SearchResult Nat))) 5).1
    (by decide)

/-- C4: with the stop flag clear and an empty transposition table,
nega_max_alpha_beta at depth 0 is exactly the fixed-point conversion
(multiply by 10000 and round to i64) of the quiescence search over the full
(f32::MIN, f32::MAX) window. -/
theorem nega_depth_zero_delegates {β μ : Type} [DecidableEq μ] (g : Game β μ)
    (b : β) (hm : Nat) :
    negaMaxAlphaBeta g false TT.empty b 0 hm =
      roundI64 (quiesce g b f32MinQ f32MaxQ * 10000) := by
  simp only [negaMaxAlphaBeta, negaInternal, ttProbe, TT.get, TT.empty, Bool.false_eq_true,
    if_false]

/-- The hash fold only consumes piece_on answers, so two boards agreeing on
piece_on produce identical folds from any starting accumulator. -/
theorem hashBoard_foldl_congr (z : Fin 64 → Fin 6 → Nat) (b1 b2 : ChessBoard)
    (hp : ∀ sq, pieceOn b1 sq = pieceOn b2 sq) :
    ∀ (l : List (Fin 64)) (init : Nat),
      l.foldl
        (fun h sq =>
          match pieceOn b1 sq with
          | some p => h ^^^ z sq (pieceIdx p)
          | none => h) init =
      l.foldl
        (fun h sq =>
          match pieceOn b2 sq with
          | some p => h ^^^ z sq (pieceIdx p)
          | none => h) init := by
  intro l
  induction l with
  | nil => intro init; rfl
  | cons sq rest ih =>
    intro init
    simp only [List.foldl_cons, hp sq]
    exact ih _

/-- C5: hash_board depends only on the side to move and on the piece kind
standing on each square; piece colours, castling and en-passant rights are
not consumed, so any two boards agreeing on these data share one hash (and
hence one transposition-table entry), whatever the Zobrist table is. -/
theorem hash_board_ignores_color (z : Fin 64 → Fin 6 → Nat) (b1 b2 : ChessBoard)
    (hside : b1.sideToMove = b2.sideToMove)
    (hp : ∀ sq, pieceOn b1 sq = pieceOn b2 sq) :
    hashBoard z b1 = hashBoard z b2 := by
  unfold hashBoard
  rw [hside]
  exact hashBoard_foldl_congr z b1 b2 hp _ _

/-- C5 witness: a board with a single white pawn on a1 and the same board
with the pawn recoloured black hash identically. -/
theorem hash_board_ignores_color_witness :
    hashBoard (fun sq p => sq.val * 6 + p.val)
        ⟨fun p => if p = Piece.pawn then 1 else 0,
         fun c => if c = Color.white then 1 else 0, Color.white⟩ =
      hashBoard (fun sq p => sq.val * 6 + p.val)
        ⟨fun p => if p = Piece.pawn then 1 else 0,
         fun c => if c = Color.black then 1 else 0, Color.white⟩ :=
  hash_board_ignores_color (fun sq p => sq.val * 6 + p.val) _ _ rfl (fun _ => rfl)

/-- Congruence and success of the quiescence move loop: if two recursive
evaluators agree and succeed on every board reached by a move of the list,
the loop yields the same successful result under both. -/
theorem quiesceLoop_congr {β μ : Type} (g : Game β μ) (b : β) (beta : ℚ)
    (q1 q2 : β → ℚ → ℚ → Option ℚ) :
    ∀ (l : List μ) (alpha : ℚ),
      (∀ m, m ∈ l → ∀ a2 b2,
        q1 (g.makeMove b m) a2 b2 = q2 (g.makeMove b m) a2 b2 ∧
          (q1 (g.makeMove b m) a2 b2).isSome = true) →
      quiesceLoop q1 g b beta l alpha = quiesceLoop q2 g b beta l alpha ∧
        (quiesceLoop q1 g b beta l alpha).isSome = true := by
  intro l
  induction l with
  | nil => intro alpha _; exact ⟨rfl, rfl⟩
  | cons m rest ih =>
    intro alpha h
    obtain ⟨heq, hsome⟩ := h m (List.mem_cons_self m rest) (-beta) (-alpha)
    obtain ⟨v, hv⟩ := Option.isSome_iff_exists.mp hsome
    have hrest : ∀ m2, m2 ∈ rest → ∀ a2 b2,
        q1 (g.makeMove b m2) a2 b2 = q2 (g.makeMove b m2) a2 b2 ∧
          (q1 (g.makeMove b m2) a2 b2).isSome = true :=
      fun m2 hm2 => h m2 (List.mem_cons_of_mem m hm2)
    simp only [quiesceLoop, ← heq, hv]
    split_ifs
    · exact ⟨rfl, rfl⟩
    · exact ih _ hrest
    · exact ih _ hrest

/-- C8: the quiescence search terminates.  Since it recurses only into moves
whose destination square is occupied, and every such capture strictly reduces
the board's piece count, any fuel above the piece count suffices: the result
is a value (isSome) and is independent of the fuel. -/
theorem quiesce_terminates {β μ : Type} (g : Game β μ) (hcap : CapturesShrink g) :
    ∀ (f1 : Nat) (b : β) (alpha beta : ℚ) (f2 : Nat),
      g.pieceCount b < f1 → g.pieceCount b < f2 →
      quiesceFuel g f1 b alpha beta = quiesceFuel g f2 b alpha beta ∧
        (quiesceFuel g f1 b alpha beta).isSome = true := by
  intro f1
  induction f1 using Nat.strong_induction_on with
  | _ f1 ih =>
    intro b alpha beta f2 h1 h2
    match f1, h1 with
    | f + 1, h1 =>
      match f2, h2 with
      | f2p + 1, h2 =>
        simp only [quiesceFuel]
        split_ifs
        · exact ⟨rfl, rfl⟩
        · exact ⟨rfl, rfl⟩
        · exact ⟨rfl, rfl⟩
        all_goals
          refine quiesceLoop_congr g b beta (fun b2 a2 beta2 => quiesceFuel g f b2 a2 beta2)
            (fun b2 a2 beta2 => quiesceFuel g f2p b2 a2 beta2) _ _
            (fun m hm a2 b2 => ?_)
          rw [List.mem_filter] at hm
          have hlt := hcap b m hm.1 hm.2
          exact ih f (by omega) (g.makeMove b m) a2 b2 f2p (by omega) (by omega)

/-- C8 witness: in the two-board capture game, fuel 2 and fuel 3 agree and
succeed from the root. -/
theorem quiesce_terminates_witness :
    quiesceFuel gQ 2 true 0 1 = quiesceFuel gQ 3 true 0 1 ∧
      (quiesceFuel gQ 2 true 0 1).isSome = true :=
  quiesce_terminates gQ (by unfold CapturesShrink; decide) 2 true 0 1 3 (by decide)
    (by decide)

/-- Relation between the negamax move loop (stop flag clear) and its trace:
when no beta cutoff fires, the loop returns the final alpha and adds the
node's entry flagged Exact exactly when every evaluated move strictly
improved alpha (the is_exact flag survived), else Lowerbound; when a cutoff
fires on some move, that move's score strictly exceeds beta and the loop
returns beta after adding an UpperBound entry carrying that score. -/
theorem negaLoop_trace_spec {β μ : Type} [DecidableEq μ]
    (rec : TT μ → β → ℚ → ℚ → ℚ × TT μ) (g : Game β μ) (sd hm : Nat) (b : β)
    (beta : ℚ) :
    ∀ (l : List μ) (t : TT μ) (alpha : ℚ) (bm : Option μ) (isExact anyImp : Bool),
      ((negaLoopTrace rec g b beta l t alpha bm isExact anyImp).cut = none →
        negaLoop rec g false sd hm b beta l t alpha bm isExact =
          ((negaLoopTrace rec g b beta l t alpha bm isExact anyImp).endAlpha,
           TT.add g.hash (negaLoopTrace rec g b beta l t alpha bm isExact anyImp).endTable b
             ⟨(sd : Int), (negaLoopTrace rec g b beta l t alpha bm isExact anyImp).endAlpha,
              if (negaLoopTrace rec g b beta l t alpha bm isExact anyImp).allImproved then
                SearchFlag.Exact
              else SearchFlag.Lowerbound,
              hm, (negaLoopTrace rec g b beta l t alpha bm isExact anyImp).endBm⟩)) ∧
      (∀ m s,
        (negaLoopTrace rec g b beta l t alpha bm isExact anyImp).cut = some (m, s) →
        beta < s ∧
          negaLoop rec g false sd hm b beta l t alpha bm isExact =
            (beta,
             TT.add g.hash (negaLoopTrace rec g b beta l t alpha bm isExact anyImp).endTable b
               ⟨(sd : Int), s, SearchFlag.UpperBound, hm, some m⟩)) := by
  intro l
  induction l with
  | nil =>
    intro t alpha bm isExact anyImp
    exact ⟨fun _ => rfl, fun m s h => by simp [negaLoopTrace] at h⟩
  | cons m rest ih =>
    intro t alpha bm isExact anyImp
    simp only [negaLoop, negaLoopTrace, Bool.false_eq_true, if_false]
    by_cases hcut : -(rec t (g.makeMove b m) (-beta) (-alpha)).1 > beta
    · simp only [if_pos hcut]
      refine ⟨fun h => ?_, fun m2 s2 h => ?_⟩
      · simp at h
      · simp only [Option.some.injEq, Prod.mk.injEq] at h
        obtain ⟨hm2, hs2⟩ := h
        subst hm2
        subst hs2
        exact ⟨hcut, rfl⟩
    · simp only [if_neg hcut]
      by_cases himp : -(rec t (g.makeMove b m) (-beta) (-alpha)).1 > alpha
      · simp only [if_pos himp]
        exact ih _ _ _ _ _
      · simp only [if_neg himp]
        exact ih _ _ _ _ _

/-- C3 counterexample: in the concrete game gEx at depth 1 with window
(0, 100), the first move scores 5 (strictly improving alpha = 0) and the
second scores 5 (not strictly improving alpha = 5), so the loop completes
without cutoff and some move improved alpha; the claim therefore predicts an
Exact entry, but the search stores the entry flagged Lowerbound. -/
theorem nega_flag_cex :
    TT.orderedMoves gEx.hash TT.empty 0 (gEx.legalMoves 0) = [1, 2] ∧
    (negaLoopTrace (fun t1 b1 a1 beta1 => negaInternal gEx false 0 t1 b1 1 a1 beta1)
        gEx 0 100 [1, 2] TT.empty 0 none true false).cut = none ∧
    (negaLoopTrace (fun t1 b1 a1 beta1 => negaInternal gEx false 0 t1 b1 1 a1 beta1)
        gEx 0 100 [1, 2] TT.empty 0 none true false).anyImproved = true ∧
    (negaInternal gEx false 1 TT.empty 0 0 0 100).2 (gEx.hash 0) =
      some ⟨1, 5, SearchFlag.Lowerbound, 0, some 1⟩ ∧
    SearchFlag.Lowerbound ≠ SearchFlag.Exact := by
  refine ⟨?_, ?_, ?_, ?_, ?_⟩ <;> with_unfolding_all decide

/-- C3 (amended): at depth d + 1 with the stop flag clear and no
transposition short-circuit, when the move loop completes without a beta
cutoff the stored entry is flagged Exact if every evaluated move strictly
improved alpha (vacuously so for an empty move list) and Lowerbound
otherwise (i.e. as soon as one move failed to improve alpha, even if others
did); and when some move's score strictly exceeds beta, that score's
UpperBound entry is stored and beta is returned. -/
theorem nega_flag_characterization {β μ : Type} [DecidableEq μ] (g : Game β μ)
    (t : TT μ) (b : β) (d hm : Nat) (alpha beta : ℚ)
    (hprobe : ttProbe g.hash t b ((d : Int) + 1) alpha beta = none) :
    ((negaLoopTrace (fun t1 b1 a1 beta1 => negaInternal g false d t1 b1 (hm + 1) a1 beta1)
        g b beta (TT.orderedMoves g.hash t b (g.legalMoves b)) t alpha none true false).cut
          = none →
      negaInternal g false (d + 1) t b hm alpha beta =
        ((negaLoopTrace (fun t1 b1 a1 beta1 => negaInternal g false d t1 b1 (hm + 1) a1 beta1)
            g b beta (TT.orderedMoves g.hash t b (g.legalMoves b)) t alpha none true false).endAlpha,
         TT.add g.hash
           (negaLoopTrace (fun t1 b1 a1 beta1 => negaInternal g false d t1 b1 (hm + 1) a1 beta1)
             g b beta (TT.orderedMoves g.hash t b (g.legalMoves b)) t alpha none true false).endTable
           b
           ⟨((d : Int) + 1),
            (negaLoopTrace (fun t1 b1 a1 beta1 => negaInternal g false d t1 b1 (hm + 1) a1 beta1)
              g b beta (TT.orderedMoves g.hash t b (g.legalMoves b)) t alpha none true false).endAlpha,
            if (negaLoopTrace (fun t1 b1 a1 beta1 => negaInternal g false d t1 b1 (hm + 1) a1 beta1)
                 g b beta (TT.orderedMoves g.hash t b (g.legalMoves b)) t alpha none true
                 false).allImproved then
              SearchFlag.Exact
            else SearchFlag.Lowerbound,
            hm,
            (negaLoopTrace (fun t1 b1 a1 beta1 => negaInternal g false d t1 b1 (hm + 1) a1 beta1)
              g b beta (TT.orderedMoves g.hash t b (g.legalMoves b)) t alpha none true false).endBm⟩)) ∧
    (∀ m s,
      (negaLoopTrace (fun t1 b1 a1 beta1 => negaInternal g false d t1 b1 (hm + 1) a1 beta1)
        g b beta (TT.orderedMoves g.hash t b (g.legalMoves b)) t alpha none true false).cut
          = some (m, s) →
      beta < s ∧
        negaInternal g false (d + 1) t b hm alpha beta =
          (beta,
           TT.add g.hash
             (negaLoopTrace (fun t1 b1 a1 beta1 => negaInternal g false d t1 b1 (hm + 1) a1 beta1)
               g b beta (TT.orderedMoves g.hash t b (g.legalMoves b)) t alpha none true false).endTable
             b ⟨((d : Int) + 1), s, SearchFlag.UpperBound, hm, some m⟩)) := by
  have hstep : negaInternal g false (d + 1) t b hm alpha beta =
      negaLoop (fun t1 b1 a1 beta1 => negaInternal g false d t1 b1 (hm + 1) a1 beta1)
        g false (d + 1) hm b beta (TT.orderedMoves g.hash t b (g.legalMoves b)) t alpha
        none true := by
    simp only [negaInternal, hprobe, Bool.false_eq_true, if_false]
  rw [hstep]
  have hspec := negaLoop_trace_spec
    (fun t1 b1 a1 beta1 => negaInternal g false d t1 b1 (hm + 1) a1 beta1) g (d + 1) hm b
    beta (TT.orderedMoves g.hash t b (g.legalMoves b)) t alpha none true false
  have hcast : ((d + 1 : Nat) : Int) = (d : Int) + 1 := by omega
  rw [hcast] at hspec
  exact hspec

/-- C3 witness: the characterisation applied to gEx at depth 1 from an empty
table, where the loop completes and yields the Lowerbound-flagged entry. -/
theorem nega_flag_characterization_witness :
    negaInternal gEx false (0 + 1) TT.empty 0 0 0 100 =
      ((negaLoopTrace (fun t1 b1 a1 beta1 => negaInternal gEx false 0 t1 b1 (0 + 1) a1 beta1)
          gEx 0 100 (TT.orderedMoves gEx.hash TT.empty 0 (gEx.legalMoves 0)) TT.empty 0 none
          true false).endAlpha,
       TT.add gEx.hash
         (negaLoopTrace (fun t1 b1 a1 beta1 => negaInternal gEx false 0 t1 b1 (0 + 1) a1 beta1)
           gEx 0 100 (TT.orderedMoves gEx.hash TT.empty 0 (gEx.legalMoves 0)) TT.empty 0 none
           true false).endTable
         0
         ⟨((0 : Int) + 1),
          (negaLoopTrace (fun t1 b1 a1 beta1 => negaInternal gEx false 0 t1 b1 (0 + 1) a1 beta1)
            gEx 0 100 (TT.orderedMoves gEx.hash TT.empty 0 (gEx.legalMoves 0)) TT.empty 0 none
            true false).endAlpha,
          if (negaLoopTrace (fun t1 b1 a1 beta1 => negaInternal gEx false 0 t1 b1 (0 + 1) a1 beta1)
               gEx 0 100 (TT.orderedMoves gEx.hash TT.empty 0 (gEx.legalMoves 0)) TT.empty 0 none
               true false).allImproved then
            SearchFlag.Exact
          else SearchFlag.Lowerbound,
          0,
          (negaLoopTrace (fun t1 b1 a1 beta1 => negaInternal gEx false 0 t1 b1 (0 + 1) a1 beta1)
            gEx 0 100 (TT.orderedMoves gEx.hash TT.empty 0 (gEx.legalMoves 0)) TT.empty 0 none
            true false).endBm⟩) :=
  (nega_flag_characterization gEx TT.empty 0 0 0 0 100 (by with_unfolding_all rfl)).1
    (by with_unfolding_all rfl)

/-- C9 counterexample: in the wasm build's calculate_move_scores, a move
whose notation contains the checkmate marker is first assigned i64::MAX but
the subsequent clamp stores MAX_SAFE_INTEGER = 2 ^ 53 - 1, which is not the
maximum representable i64 score. -/
theorem root_move_score_cex :
    String.contains "Qh7#" '#' = true ∧
    wasmRootMoveScore gEx TT.empty 0 0 0 "Qh7#" 1 = jsMaxSafeInteger ∧
    jsMaxSafeInteger ≠ i64Max := by
  refine ⟨?_, ?_, ?_⟩ <;> with_unfolding_all decide

/-- C9 (amended): in the threaded build's per-depth root-move evaluation, a
move whose notation contains the checkmate marker is assigned i64::MAX
without consulting the search, and any other move the negated negamax value
of the position after the move; in the wasm build the same scores are
additionally clamped into the JavaScript safe-integer range, so a mating
move is stored as 2 ^ 53 - 1. -/
theorem root_move_score_characterization {β μ : Type} [DecidableEq μ] (g : Game β μ)
    (stop : Bool) (t : TT μ) (depth hm : Nat) (b : β) (san : String) (m : μ) :
    (san.contains '#' = true → rootMoveScore g stop t depth hm b san m = i64Max) ∧
    (san.contains '#' = false →
      rootMoveScore g stop t depth hm b san m =
        -(negaMaxAlphaBeta g stop t (g.makeMove b m) depth hm)) ∧
    (san.contains '#' = true →
      wasmRootMoveScore g t depth hm b san m = jsMaxSafeInteger) ∧
    (san.contains '#' = false →
      wasmRootMoveScore g t depth hm b san m =
        clampJs (-(negaMaxAlphaBeta g false t (g.makeMove b m) (depth + 1) (hm + 1)))) := by
  refine ⟨fun h => ?_, fun h => ?_, fun h => ?_, fun h => ?_⟩
  · simp only [rootMoveScore, h, if_true]
  · simp only [rootMoveScore, h, Bool.false_eq_true, if_false]
  · simp only [wasmRootMoveScore, h, if_true]
    decide
  · simp only [wasmRootMoveScore, h, Bool.false_eq_true, if_false]

/-- C9 witness: the characterisation applied to a mating notation in the
threaded build yields i64::MAX. -/
theorem root_move_score_characterization_witness :
    rootMoveScore gEx false TT.empty 0 0 0 "Qh7#" 1 = i64Max :=
  (root_move_score_characterization gEx false TT.empty 0 0 0 "Qh7#" 1).1
    (by with_unfolding_all decide)

/-- A modular index always selects an element of a nonempty list. -/
theorem list_get_mod_mem {α : Type} (l : List α) (k : Nat) (h : l ≠ []) :
    ∃ x, l[k % l.length]? = some x ∧ x ∈ l := by
  have hlen : 0 < l.length := List.length_pos.mpr h
  have hk : k % l.length < l.length := Nat.mod_lt _ hlen
  exact ⟨l[k % l.length], List.getElem?_eq_getElem hk, List.getElem_mem hk⟩

/-- A left fold by max starting from x yields x or a member of the list. -/
theorem foldl_max_mem (xs : List Int) : ∀ x : Int, xs.foldl max x = x ∨ xs.foldl max x ∈ xs := by
  induction xs with
  | nil => intro x; exact Or.inl rfl
  | cons y ys ih =>
    intro x
    rcases ih (max x y) with h | h
    · rcases max_choice x y with hm | hm
      · exact Or.inl (by rw [List.foldl_cons, h, hm])
      · exact Or.inr (by rw [List.foldl_cons, h, hm]; exact List.mem_cons_self y ys)
    · exact Or.inr (List.mem_cons_of_mem y h)

/-- The maximum of a nonempty score list is one of its members. -/
theorem intListMax_mem (l : List Int) (h : l ≠ []) : intListMax l ∈ l := by
  match l, h with
  | x :: xs, _ =>
    simp only [intListMax]
    rcases foldl_max_mem xs x with h2 | h2
    · rw [h2]; exact List.mem_cons_self x xs
    · rw [List.mem_cons]; exact Or.inr h2

/-- The key maximum is the list maximum of the first components. -/
theorem keysMaxD_eq (l : List (Int × List MoveScoreR)) :
    keysMaxD l = intListMax (l.map Prod.fst) := by
  cases h : l.map Prod.fst with
  | nil => simp [keysMaxD, intListMax, h]
  | cons x xs => simp [keysMaxD, intListMax, h]

/-- C10: whenever the input move map is nonempty, any nonempty per-depth
table carries nonnegative contiguous depth keys (as the engine produces
them), the sampled depth is nonnegative and every tabled notation is a key of
the input map, the selection epilogue of delayed_turn_eval returns some
notation from the input map: a legal move, with the uniform fallback covering
both the empty score table (zero depths of results) and a hit-rate filter
that eliminates every candidate. -/
theorem delayed_select_total (moves : List String)
    (moveScores : List (Int × List MoveScoreR)) (randomDepth : Int)
    (hit : MoveScoreR → Bool) (pickBest pickFallback : Nat)
    (hmoves : moves ≠ [])
    (hkeys : ∀ p ∈ moveScores, 0 ≤ p.1)
    (hrand : 0 ≤ randomDepth)
    (hlookup : moveScores ≠ [] → ∀ d : Int, 0 ≤ d → d ≤ keysMaxD moveScores →
      (lookupDepth d moveScores).isSome = true)
    (hsans : ∀ p ∈ moveScores, ∀ ms ∈ p.2, ms.san ∈ moves) :
    ∃ s, delayedSelect moves moveScores randomDepth hit pickBest pickFallback = some s ∧
      s ∈ moves := by
  obtain ⟨sfb, hsfb, hsfbmem⟩ := list_get_mod_mem moves pickFallback hmoves
  by_cases hempty : moveScores.isEmpty = true
  · refine ⟨sfb, ?_, hsfbmem⟩
    simp [delayedSelect, hempty, hsfb]
  · have hne : moveScores ≠ [] := by
      intro hn
      subst hn
      exact hempty rfl
    have hmapne : moveScores.map Prod.fst ≠ [] := by simpa using hne
    have hmax0 : 0 ≤ keysMaxD moveScores := by
      have hkmem : keysMaxD moveScores ∈ moveScores.map Prod.fst := by
        rw [keysMaxD_eq]
        exact intListMax_mem _ hmapne
      obtain ⟨p, hpmem, hpfst⟩ := List.mem_map.mp hkmem
      rw [← hpfst]
      exact hkeys p hpmem
    have hsome := hlookup hne (min randomDepth (keysMaxD moveScores))
      (le_min hrand hmax0) (min_le_right _ _)
    obtain ⟨lst, hlst⟩ := Option.isSome_iff_exists.mp hsome
    have hlstmem : ∀ ms ∈ lst, ms.san ∈ moves := by
      unfold lookupDepth at hlst
      obtain ⟨p, hp, hps⟩ : ∃ p,
          moveScores.find? (fun q => q.1 = min randomDepth (keysMaxD moveScores)) = some p ∧
            p.2 = lst := by
        cases hf : moveScores.find?
            (fun q => q.1 = min randomDepth (keysMaxD moveScores)) with
        | none => rw [hf] at hlst; simp at hlst
        | some p =>
          rw [hf] at hlst
          simp at hlst
          exact ⟨p, rfl, hlst⟩
      have hpmem := List.mem_of_find?_eq_some hp
      intro ms hms
      exact hsans p hpmem ms (hps ▸ hms)
    by_cases hfe : (lst.filter hit).isEmpty = true
    · refine ⟨sfb, ?_, hsfbmem⟩
      simp [delayedSelect, hempty, hlst, hfe, hsfb]
    · have hfne : lst.filter hit ≠ [] := by
        intro hn
        rw [hn] at hfe
        exact hfe rfl
      have hmapne2 : (lst.filter hit).map (fun ms => ms.score) ≠ [] := by simpa using hfne
      have hbmem := intListMax_mem _ hmapne2
      obtain ⟨ms0, hms0mem, hms0score⟩ := List.mem_map.mp hbmem
      have hbne : (lst.filter hit).filter
          (fun ms => ms.score = intListMax ((lst.filter hit).map fun ms => ms.score)) ≠ [] := by
        refine List.ne_nil_of_mem (a := ms0) (List.mem_filter.mpr ⟨hms0mem, ?_⟩)
        simp [hms0score]
      obtain ⟨msSel, hsel, hselmem⟩ := list_get_mod_mem _ pickBest hbne
      refine ⟨msSel.san, ?_, ?_⟩
      · simp [delayedSelect, hempty, hlst, hfe, hsel, -List.filter_filter]
      · have h1 := (List.mem_filter.mp hselmem).1
        have h2 := (List.mem_filter.mp h1).1
        exact hlstmem msSel h2

/-- C10 witness: the empty per-depth score table (a zero-second deadline,
the spec's scenario 4) still selects a legal notation via the uniform
fallback. -/
theorem delayed_select_total_witness :
    ∃ s, delayedSelect ["a", "b"] [] 0 (fun _ => true) 0 0 = some s ∧ s ∈ ["a", "b"] :=
  delayed_select_total ["a", "b"] [] 0 (fun _ => true) 0 0
    (by decide) (by decide) (by decide)
    (fun h => absurd rfl h)
    (by decide)

/-- Bits at index 64 or above of a u64 value are clear. -/
theorem testBit_ge64_eq_false {x : Nat} (hx : x < 2 ^ 64) {i : Nat} (hi : 64 ≤ i) :
    x.testBit i = false :=
  Nat.testBit_lt_two_pow (lt_of_lt_of_le hx (Nat.pow_le_pow_right (by norm_num) hi))

/-- Bit characterisation of the truncated left shift. -/
theorem shl64_testBit (a k : Nat) {i : Nat} (hi : i < 64) :
    (shl64 a k).testBit i = (decide (k ≤ i) && a.testBit (i - k)) := by
  unfold shl64
  rw [Nat.testBit_mod_two_pow, Nat.testBit_shiftLeft]
  simp [hi]

/-- The truncated left shift stays below 2 ^ 64. -/
theorem shl64_lt64 (a k : Nat) : shl64 a k < 2 ^ 64 :=
  Nat.mod_lt _ (by norm_num)

/-- Bitwise or stays below 2 ^ 64. -/
theorem or_lt64 {x y : Nat} (hx : x < 2 ^ 64) (hy : y < 2 ^ 64) : x ||| y < 2 ^ 64 :=
  Nat.or_lt_two_pow hx hy

/-- Bitwise and of a u64 stays below 2 ^ 64. -/
theorem and_lt64 {x : Nat} (hx : x < 2 ^ 64) (y : Nat) : x &&& y < 2 ^ 64 :=
  lt_of_le_of_lt Nat.and_le_left hx

/-- Right shift of a u64 stays below 2 ^ 64. -/
theorem shr_lt64 {x : Nat} (hx : x < 2 ^ 64) (k : Nat) : x >>> k < 2 ^ 64 :=
  lt_of_le_of_lt (by rw [Nat.shiftRight_eq_div_pow]; exact Nat.div_le_self _ _) hx

/-- The 64-bit complement of a u64 stays below 2 ^ 64. -/
theorem compl64_lt64 {x : Nat} (hx : x < 2 ^ 64) : compl64 x < 2 ^ 64 :=
  Nat.xor_lt_two_pow hx (by norm_num)

/-- Reflection is preserved by bitwise and. -/
theorem refl64_and {x x2 y y2 : Nat} (h1 : Refl64 x x2) (h2 : Refl64 y y2) :
    Refl64 (x &&& y) (x2 &&& y2) := by
  intro i
  simp [Nat.testBit_and, h1 i, h2 i]

/-- Reflection is preserved by bitwise or. -/
theorem refl64_or {x x2 y y2 : Nat} (h1 : Refl64 x x2) (h2 : Refl64 y y2) :
    Refl64 (x ||| y) (x2 ||| y2) := by
  intro i
  simp [Nat.testBit_or, h1 i, h2 i]

/-- Reflection is preserved by bitwise and with the pair swapped. -/
theorem refl64_and_swap {x x2 y y2 : Nat} (h1 : Refl64 x y2) (h2 : Refl64 y x2) :
    Refl64 (x &&& y) (x2 &&& y2) := by
  intro i
  simp [Nat.testBit_and, h1 i, h2 i, Bool.and_comm]

/-- Reflection is preserved by bitwise or with the pair swapped. -/
theorem refl64_or_swap {x x2 y y2 : Nat} (h1 : Refl64 x y2) (h2 : Refl64 y x2) :
    Refl64 (x ||| y) (x2 ||| y2) := by
  intro i
  simp [Nat.testBit_or, h1 i, h2 i, Bool.or_comm]

/-- Reflection is preserved by the 64-bit complement. -/
theorem refl64_compl {x x2 : Nat} (h : Refl64 x x2) : Refl64 (compl64 x) (compl64 x2) := by
  have hm1 : ∀ j, j < 64 → Nat.testBit (2 ^ 64 - 1) j = true := fun j hj => by
    rw [Nat.testBit_two_pow_sub_one]
    exact decide_eq_true hj
  intro i
  simp only [compl64, Nat.testBit_xor]
  rw [h i, hm1 i.val i.isLt, hm1 (63 - i.val) (by omega)]

/-- A truncated left shift reflects onto a right shift. -/
theorem refl64_shl_shr {x x2 : Nat} (hx2 : x2 < 2 ^ 64) (h : Refl64 x x2) (k : Nat) :
    Refl64 (shl64 x k) (x2 >>> k) := by
  intro i
  rw [Nat.testBit_shiftRight, shl64_testBit x k (by omega : 63 - i.val < 64)]
  by_cases hki : k + i.val ≤ 63
  · have h1 : x2.testBit (k + i.val) = x.testBit (63 - (k + i.val)) := h ⟨k + i.val, by omega⟩
    rw [h1, decide_eq_true (by omega : k ≤ 63 - i.val), Bool.true_and]
    congr 1
    omega
  · rw [testBit_ge64_eq_false hx2 (by omega), decide_eq_false (by omega : ¬k ≤ 63 - i.val),
      Bool.false_and]

/-- A right shift reflects onto a truncated left shift. -/
theorem refl64_shr_shl {x x2 : Nat} (hx : x < 2 ^ 64) (h : Refl64 x x2) (k : Nat) :
    Refl64 (x >>> k) (shl64 x2 k) := by
  intro i
  rw [shl64_testBit x2 k i.isLt, Nat.testBit_shiftRight]
  by_cases hk : k ≤ i.val
  · have h1 : x2.testBit (i.val - k) = x.testBit (63 - (i.val - k)) := h ⟨i.val - k, by omega⟩
    rw [decide_eq_true hk, Bool.true_and, h1]
    congr 1
    omega
  · rw [decide_eq_false hk, Bool.false_and, testBit_ge64_eq_false hx (by omega)]

/-- north_fill reflects onto south_fill. -/
theorem refl64_northFill_southFill {x x2 : Nat} (hx : x < 2 ^ 64) (hx2 : x2 < 2 ^ 64)
    (h : Refl64 x x2) : Refl64 (northFill x) (southFill x2) := by
  have h1 : Refl64 (x ||| shl64 x 8) (x2 ||| x2 >>> 8) :=
    refl64_or h (refl64_shl_shr hx2 h 8)
  have b1 : x ||| shl64 x 8 < 2 ^ 64 := or_lt64 hx (shl64_lt64 x 8)
  have b2 : x2 ||| x2 >>> 8 < 2 ^ 64 := or_lt64 hx2 (shr_lt64 hx2 8)
  have h2 : Refl64 ((x ||| shl64 x 8) ||| shl64 (x ||| shl64 x 8) 16)
      ((x2 ||| x2 >>> 8) ||| (x2 ||| x2 >>> 8) >>> 16) :=
    refl64_or h1 (refl64_shl_shr b2 h1 16)
  have b3 : (x ||| shl64 x 8) ||| shl64 (x ||| shl64 x 8) 16 < 2 ^ 64 :=
    or_lt64 b1 (shl64_lt64 _ 16)
  have b4 : (x2 ||| x2 >>> 8) ||| (x2 ||| x2 >>> 8) >>> 16 < 2 ^ 64 :=
    or_lt64 b2 (shr_lt64 b2 16)
  have h3 := refl64_or h2 (refl64_shl_shr b4 h2 32)
  simpa [northFill, southFill] using h3

/-- south_fill reflects onto north_fill. -/
theorem refl64_southFill_northFill {x x2 : Nat} (hx : x < 2 ^ 64) (hx2 : x2 < 2 ^ 64)
    (h : Refl64 x x2) : Refl64 (southFill x) (northFill x2) := by
  have h1 : Refl64 (x ||| x >>> 8) (x2 ||| shl64 x2 8) :=
    refl64_or h (refl64_shr_shl hx h 8)
  have b1 : x ||| x >>> 8 < 2 ^ 64 := or_lt64 hx (shr_lt64 hx 8)
  have b2 : x2 ||| shl64 x2 8 < 2 ^ 64 := or_lt64 hx2 (shl64_lt64 x2 8)
  have h2 : Refl64 ((x ||| x >>> 8) ||| (x ||| x >>> 8) >>> 16)
      ((x2 ||| shl64 x2 8) ||| shl64 (x2 ||| shl64 x2 8) 16) :=
    refl64_or h1 (refl64_shr_shl b1 h1 16)
  have b3 : (x ||| x >>> 8) ||| (x ||| x >>> 8) >>> 16 < 2 ^ 64 :=
    or_lt64 b1 (shr_lt64 b1 16)
  have h3 := refl64_or h2 (refl64_shr_shl b3 h2 32)
  simpa [southFill, northFill] using h3

/-- Bounds for north_fill. -/
theorem northFill_lt64 {x : Nat} (hx : x < 2 ^ 64) : northFill x < 2 ^ 64 := by
  have b1 : x ||| shl64 x 8 < 2 ^ 64 := or_lt64 hx (shl64_lt64 x 8)
  have b2 : (x ||| shl64 x 8) ||| shl64 (x ||| shl64 x 8) 16 < 2 ^ 64 :=
    or_lt64 b1 (shl64_lt64 _ 16)
  simpa [northFill] using or_lt64 b2 (shl64_lt64 _ 32)

/-- Bounds for south_fill. -/
theorem southFill_lt64 {x : Nat} (hx : x < 2 ^ 64) : southFill x < 2 ^ 64 := by
  have b1 : x ||| x >>> 8 < 2 ^ 64 := or_lt64 hx (shr_lt64 hx 8)
  have b2 : (x ||| x >>> 8) ||| (x ||| x >>> 8) >>> 16 < 2 ^ 64 :=
    or_lt64 b1 (shr_lt64 b1 16)
  simpa [southFill] using or_lt64 b2 (shr_lt64 b2 32)

/-- file_fill reflects onto itself. -/
theorem refl64_fileFill {x x2 : Nat} (hx : x < 2 ^ 64) (hx2 : x2 < 2 ^ 64)
    (h : Refl64 x x2) : Refl64 (fileFill x) (fileFill x2) :=
  refl64_or_swap (refl64_northFill_southFill hx hx2 h) (refl64_southFill_northFill hx hx2 h)

/-- Bounds for file_fill. -/
theorem fileFill_lt64 {x : Nat} (hx : x < 2 ^ 64) : fileFill x < 2 ^ 64 :=
  or_lt64 (northFill_lt64 hx) (southFill_lt64 hx)

/-- NOT_A_FILE reflects onto NOT_H_FILE. -/
theorem refl64_notA_notH : Refl64 NOT_A_FILE NOT_H_FILE := by
  unfold Refl64
  decide

/-- NOT_H_FILE reflects onto NOT_A_FILE. -/
theorem refl64_notH_notA : Refl64 NOT_H_FILE NOT_A_FILE := by
  unfold Refl64
  decide

/-- east_one reflects onto west_one. -/
theorem refl64_eastOne_westOne {x x2 : Nat} (hx2 : x2 < 2 ^ 64) (h : Refl64 x x2) :
    Refl64 (eastOne x) (westOne x2) :=
  refl64_and (refl64_shl_shr hx2 h 1) refl64_notA_notH

/-- west_one reflects onto east_one. -/
theorem refl64_westOne_eastOne {x x2 : Nat} (hx : x < 2 ^ 64) (h : Refl64 x x2) :
    Refl64 (westOne x) (eastOne x2) :=
  refl64_and (refl64_shr_shl hx h 1) refl64_notH_notA

/-- The isolated-pawns mask reflects onto itself. -/
theorem refl64_isolated {x x2 : Nat} (hx : x < 2 ^ 64) (hx2 : x2 < 2 ^ 64)
    (h : Refl64 x x2) : Refl64 (isolatedPawns x) (isolatedPawns x2) := by
  have hf : Refl64 (fileFill x) (fileFill x2) := refl64_fileFill hx hx2 h
  have hwe : Refl64 (westAttackFileFill x) (eastAttackFileFill x2) :=
    refl64_westOne_eastOne (fileFill_lt64 hx) hf
  have hew : Refl64 (eastAttackFileFill x) (westAttackFileFill x2) :=
    refl64_eastOne_westOne (fileFill_lt64 hx2) hf
  have hne : Refl64 (noNeighborOnEastFile x) (noNeighborOnWestFile x2) :=
    refl64_and h (refl64_compl hwe)
  have hnw : Refl64 (noNeighborOnWestFile x) (noNeighborOnEastFile x2) :=
    refl64_and h (refl64_compl hew)
  exact refl64_and_swap hne hnw

/-- The doubled-pawns mask for a colour reflects onto the mask for the other
colour. -/
theorem refl64_doubled {x x2 : Nat} (hx : x < 2 ^ 64) (hx2 : x2 < 2 ^ 64)
    (h : Refl64 x x2) : ∀ c, Refl64 (doubledPawns x c) (doubledPawns x2 (swapColor c)) := by
  intro c
  cases c with
  | white =>
    exact refl64_and h (refl64_shl_shr (southFill_lt64 hx2)
      (refl64_northFill_southFill hx hx2 h) 8)
  | black =>
    exact refl64_and h (refl64_shr_shl (southFill_lt64 hx)
      (refl64_southFill_northFill hx hx2 h) 8)

/-- Reflection preserves the population count. -/
theorem popcnt64_refl {x x2 : Nat} (h : Refl64 x x2) : popcnt64 x2 = popcnt64 x := by
  unfold popcnt64
  apply Finset.card_bij' (fun i _ => (⟨63 - i.val, by omega⟩ : Fin 64))
    (fun i _ => (⟨63 - i.val, by omega⟩ : Fin 64))
  · intro a ha
    apply Fin.ext
    simp only []
    omega
  · intro a ha
    apply Fin.ext
    simp only []
    omega
  · intro a ha
    simp only [Finset.mem_filter, Finset.mem_univ, true_and] at ha ⊢
    have h2 := h a
    rw [ha] at h2
    exact h2.symm
  · intro a ha
    simp only [Finset.mem_filter, Finset.mem_univ, true_and] at ha ⊢
    have h2 := h ⟨63 - a.val, by omega⟩
    simp only at h2
    rw [h2]
    have h3 : 63 - (63 - a.val) = a.val := by omega
    rw [h3]
    exact ha

/-- Swapping colours twice is the identity. -/
theorem swapColor_swapColor (c : Color) : swapColor (swapColor c) = c := by
  cases c <;> rfl

/-- The sign factor negates under a colour swap. -/
theorem colorSign_swap (c : Color) : colorSign (swapColor c) = -colorSign c := by
  cases c <;> norm_num [swapColor, colorSign]

/-- On mirrored boards, a colour's piece bitboard reflects onto the swapped
colour's piece bitboard. -/
theorem mirror_bb_refl {b b2 : ChessBoard} (hm : IsMirror b b2) (p : Piece) (c : Color) :
    Refl64 (b.pieces p &&& b.colors (swapColor c)) (b2.pieces p &&& b2.colors c) := by
  have h1 := hm.2.1 p
  have h2 := hm.2.2 (swapColor c)
  rw [swapColor_swapColor] at h2
  exact refl64_and h1 h2

/-- The material contribution of one (colour, piece) pair on a mirrored board
equals the contribution of the swapped colour on the original board. -/
theorem pieceMaterial_mirror {b b2 : ChessBoard} (hwf : BoardU64 b) (hwf2 : BoardU64 b2)
    (hm : IsMirror b b2) (w : Piece → ℚ) (c : Color) (p : Piece) :
    pieceMaterial w b2 c p = pieceMaterial w b (swapColor c) p := by
  have hr := mirror_bb_refl hm p c
  have hb : b.pieces p &&& b.colors (swapColor c) < 2 ^ 64 := and_lt64 (hwf p) _
  have hb2 : b2.pieces p &&& b2.colors c < 2 ^ 64 := and_lt64 (hwf2 p) _
  unfold pieceMaterial
  by_cases hp : p = Piece.pawn
  · rw [if_pos hp, if_pos hp]
    have hpop : popcnt64 (b2.pieces p &&& b2.colors c) =
        popcnt64 (b.pieces p &&& b.colors (swapColor c)) := popcnt64_refl hr
    have hdoub : popcnt64 (doubledPawns (b2.pieces p &&& b2.colors c) c) =
        popcnt64 (doubledPawns (b.pieces p &&& b.colors (swapColor c)) (swapColor c)) := by
      have h2 := refl64_doubled hb hb2 hr (swapColor c)
      rw [swapColor_swapColor] at h2
      exact popcnt64_refl h2
    have hiso : popcnt64 (isolatedPawns (b2.pieces p &&& b2.colors c)) =
        popcnt64 (isolatedPawns (b.pieces p &&& b.colors (swapColor c))) :=
      popcnt64_refl (refl64_isolated hb hb2 hr)
    rw [hpop, hdoub, hiso]
  · rw [if_neg hp, if_neg hp, popcnt64_refl hr]

/-- The material term flips sign under mirroring. -/
theorem evalMaterial_mirror {b b2 : ChessBoard} (hwf : BoardU64 b) (hwf2 : BoardU64 b2)
    (hm : IsMirror b b2) (w : Piece → ℚ) :
    evalMaterial b2 w = -evalMaterial b w := by
  have hw : ∀ p, pieceMaterial w b2 Color.white p = pieceMaterial w b Color.black p :=
    fun p => by simpa [swapColor] using pieceMaterial_mirror hwf hwf2 hm w Color.white p
  have hbk : ∀ p, pieceMaterial w b2 Color.black p = pieceMaterial w b Color.white p :=
    fun p => by simpa [swapColor] using pieceMaterial_mirror hwf hwf2 hm w Color.black p
  simp only [evalMaterial, ALL_COLORS, ALL_PIECES, List.map_cons, List.map_nil,
    List.sum_cons, List.sum_nil, hw, hbk, colorSign]
  ring

/-- The game phase is invariant under mirroring. -/
theorem gamePhase_mirror {b b2 : ChessBoard} (hm : IsMirror b b2) :
    gamePhase b2 = gamePhase b := by
  unfold gamePhase
  rw [popcnt64_refl (refl64_or (hm.2.1 Piece.bishop) (hm.2.1 Piece.knight)),
    popcnt64_refl (refl64_or (hm.2.1 Piece.rook) (hm.2.1 Piece.queen)),
    popcnt64_refl (hm.2.1 Piece.pawn)]

/-- Mirroring a square index twice is the identity. -/
theorem mirrorSq_mirrorSq (i : Fin 64) : mirrorSq (mirrorSq i) = i := by
  apply Fin.ext
  simp only [mirrorSq]
  omega

/-- The value of a mirrored square index. -/
theorem mirrorSq_val (i : Fin 64) : (mirrorSq i).val = 63 - i.val := rfl

/-- The piece-square positional term flips sign under mirroring: each piece of
one colour at square i faces a piece of the other colour at square 63 - i,
whose table lookup index is again i. -/
theorem pieceSquare_mirror {b b2 : ChessBoard} (hm : IsMirror b b2)
    (phases : PieceSquarePhases) (phase : GamePhase) :
    evaluatePieceSquareLocation phases b2 phase =
      -evaluatePieceSquareLocation phases b phase := by
  have key : ∀ (c : Color) (p : Piece),
      (∑ i : Fin 64,
        if (b2.pieces p &&& b2.colors c).testBit i.val then
          (phases.getSquareTable phase p (if c = Color.black then mirrorSq i else i) / 24) *
            colorSign c
        else 0) =
      -∑ i : Fin 64,
        if (b.pieces p &&& b.colors (swapColor c)).testBit i.val then
          (phases.getSquareTable phase p
              (if swapColor c = Color.black then mirrorSq i else i) / 24) *
            colorSign (swapColor c)
        else 0 := by
    intro c p
    have hr := mirror_bb_refl hm p c
    rw [← Finset.sum_neg_distrib]
    refine Fintype.sum_equiv ⟨mirrorSq, mirrorSq, mirrorSq_mirrorSq, mirrorSq_mirrorSq⟩
      _ _ (fun i => ?_)
    simp only [Equiv.coe_fn_mk]
    have hcond : (b.pieces p &&& b.colors (swapColor c)).testBit (mirrorSq i).val =
        (b2.pieces p &&& b2.colors c).testBit i.val := by
      rw [mirrorSq_val]
      exact (hr i).symm
    rw [hcond]
    by_cases hb : (b2.pieces p &&& b2.colors c).testBit i.val = true
    · rw [if_pos hb, if_pos hb]
      cases c with
      | white =>
        simp only [swapColor, mirrorSq_mirrorSq, reduceCtorEq, if_false, if_pos rfl]
        norm_num [colorSign]
      | black =>
        simp only [swapColor, mirrorSq_mirrorSq, reduceCtorEq, if_false, if_pos rfl]
        norm_num [colorSign]
    · rw [if_neg hb, if_neg hb]
      norm_num
  simp only [evaluatePieceSquareLocation, ALL_COLORS, ALL_PIECES, List.map_cons,
    List.map_nil, List.sum_cons, List.sum_nil]
  have k1 := fun p => key Color.white p
  have k2 := fun p => key Color.black p
  simp only [swapColor] at k1 k2
  simp only [k1, k2]
  ring

/-- The mobility term flips sign under mirroring, given symmetric move
generation and mirror-commuting null moves. -/
theorem mobility_mirror {b b2 : ChessBoard} (api : ChessApi) (hm : IsMirror b b2)
    (hcount : CountMirrors api) (hnull : NullMirrors api) :
    mobilityScore api b2 = -mobilityScore api b := by
  have hside := hm.1
  have hcnt := hcount b b2 hm
  unfold mobilityScore
  rw [hside]
  rcases hnull b b2 hm with ⟨hn1, hn2⟩ | ⟨na, na2, hn1, hn2, hmn⟩
  · cases hb : b.sideToMove with
    | white =>
      simp [mobilityLoop, swapColor, hn1, hn2, hcnt, colorSign]
    | black =>
      simp [mobilityLoop, swapColor, hn1, hn2, hcnt, colorSign]
  · have hcnt2 := hcount na na2 hmn
    cases hb : b.sideToMove with
    | white =>
      simp only [swapColor, mobilityLoop, hn1, hn2, hcnt, hcnt2, colorSign]
      cases api.nullMove na2 <;> cases api.nullMove na <;>
        simp [mobilityLoop, hcnt, hcnt2] <;> ring
    | black =>
      simp only [swapColor, mobilityLoop, hn1, hn2, hcnt, hcnt2, colorSign]
      cases api.nullMove na2 <;> cases api.nullMove na <;>
        simp [mobilityLoop, hcnt, hcnt2] <;> ring

/-- The check-bonus term flips sign under mirroring, given that the checkers
bitboard mirrors. -/
theorem checkers_mirror {b b2 : ChessBoard} (api : ChessApi) (hm : IsMirror b b2)
    (hchk : CheckersMirror api) (bonus : ℚ) :
    checkersScore api b2 bonus = -checkersScore api b bonus := by
  have hr := hchk b b2 hm
  have hw : popcnt64 (api.checkers b2 &&& b2.colors Color.white) =
      popcnt64 (api.checkers b &&& b.colors Color.black) := by
    have h2 := hm.2.2 Color.black
    exact popcnt64_refl (refl64_and hr h2)
  have hbk : popcnt64 (api.checkers b2 &&& b2.colors Color.black) =
      popcnt64 (api.checkers b &&& b.colors Color.white) := by
    have h2 := hm.2.2 Color.white
    exact popcnt64_refl (refl64_and hr h2)
  simp only [checkersScore]
  rw [hw, hbk]
  ring

/-- C6: for every evaluation preset and every position with a colour-mirrored
counterpart, the evaluation of the mirrored position is the negation of the
evaluation of the original: the material, positional and check terms flip
sign by the bitboard reflection, and the mobility term does so given
symmetric move generation and mirror-commuting null moves. -/
theorem eval_mirror_neg (api : ChessApi) (preset : EvalPreset) (b b2 : ChessBoard)
    (hwf : BoardU64 b) (hwf2 : BoardU64 b2) (hm : IsMirror b b2)
    (hcount : CountMirrors api) (hnull : NullMirrors api) (hchk : CheckersMirror api) :
    eval api preset b2 = -eval api preset b := by
  unfold eval
  rw [evalMaterial_mirror hwf hwf2 hm, mobility_mirror api hm hcount hnull,
    checkers_mirror api hm hchk, gamePhase_mirror hm, pieceSquare_mirror hm]
  ring

/-- C6 witness: the symmetry theorem applied to a board with one white pawn
on square 8 and its mirror with one black pawn on square 55, under the
trivial rules interface (no moves, no null move, no checkers). -/
theorem eval_mirror_neg_witness :
    eval ⟨fun _ => 0, fun _ => none, fun _ => 0⟩
        ⟨fun _ => 1,
         ⟨⟨fun _ => 1, fun _ => 1, fun _ => 1, fun _ => 1, fun _ => 1, fun _ => 1⟩,
          ⟨fun _ => 1, fun _ => 1, fun _ => 1, fun _ => 1, fun _ => 1, fun _ => 1⟩,
          ⟨fun _ => 1, fun _ => 1, fun _ => 1, fun _ => 1, fun _ => 1, fun _ => 1⟩⟩, 1⟩
        ⟨fun p => if p = Piece.pawn then 2 ^ 55 else 0,
         fun c => if c = Color.black then 2 ^ 55 else 0, Color.black⟩ =
      -eval ⟨fun _ => 0, fun _ => none, fun _ => 0⟩
        ⟨fun _ => 1,
         ⟨⟨fun _ => 1, fun _ => 1, fun _ => 1, fun _ => 1, fun _ => 1, fun _ => 1⟩,
          ⟨fun _ => 1, fun _ => 1, fun _ => 1, fun _ => 1, fun _ => 1, fun _ => 1⟩,
          ⟨fun _ => 1, fun _ => 1, fun _ => 1, fun _ => 1, fun _ => 1, fun _ => 1⟩⟩, 1⟩
        ⟨fun p => if p = Piece.pawn then 2 ^ 8 else 0,
         fun c => if c = Color.white then 2 ^ 8 else 0, Color.white⟩ :=
  eval_mirror_neg _ _ _ _
    (by unfold BoardU64; decide)
    (by unfold BoardU64; decide)
    (by unfold IsMirror Refl64; refine ⟨rfl, ?_, ?_⟩ <;> decide)
    (fun _ _ _ => rfl)
    (fun _ _ _ => Or.inl ⟨rfl, rfl⟩)
    (fun _ _ _ => by
      show Refl64 0 0
      unfold Refl64
      decide)
